import Mathlib

/-!
Shallow embedding of the walk-sampling core of `evolocity`
(`src/evolocity/tools/random_walk.py`) and of `velocity_model`
(`src/evolocity/tools/velocity_model.py`), together with proofs of the
specification claims.

Modelling conventions:
* probabilities are rationals (`ℚ`); NumPy floating-point tolerance constants
  are carried over as exact rationals;
* the ambient global NumPy random stream is a function `us : ℕ → ℚ` giving the
  successive uniform draws in `[0,1)` consumed by `np.random.choice` (each call
  with `size=None` consumes exactly one draw), indexed by a global draw counter;
* fallible Python code (exceptions) is embedded with `Except String`;
* the external collaborators `transition_matrix` (Transition Matrix Provider)
  and the host dataset are passed in as explicit parameters / structures.
-/

namespace Evolocity

/-- Running partial sums of a list starting from offset `a`:
`cumsumFrom a [x₁, x₂, …] = [a+x₁, a+x₁+x₂, …]`. -/
def cumsumFrom (a : ℚ) : List ℚ → List ℚ
  | [] => []
  | x :: xs => (a + x) :: cumsumFrom (a + x) xs

/-- `np.cumsum` on a rational vector. -/
def cumsum (p : List ℚ) : List ℚ := cumsumFrom 0 p

/-- NumPy's tolerance for the probability-sum check in `np.random.choice`:
`atol = np.sqrt(np.finfo(np.float64).eps) = 2 ^ (-26)`. -/
def atol : ℚ := 1 / 2 ^ 26

/-- Semantics of `np.random.choice(n, p=p)` given the uniform draw `u` that the
call consumes from the ambient random stream.  Mirrors NumPy: it checks that
`p` has size `n`, that the probabilities are non-negative, and that they sum to
1 within `atol` (raising `ValueError` otherwise), then inverts the CDF: the
returned index is the insertion point of `u` in the normalized cumulative sums
(`searchsorted` with `side=right`, i.e. the number of cumulative sums `≤ u`). -/
def np_choice (n : ℕ) (p : List ℚ) (u : ℚ) : Except String ℕ :=
  if p.length ≠ n then Except.error "ValueError: a and p must have same size"
  else if p.any (fun q => decide (q < 0)) then
    Except.error "ValueError: probabilities are not non-negative"
  else if decide (atol < |p.sum - 1|) then
    Except.error "ValueError: probabilities do not sum to 1"
  else
    Except.ok (((cumsum p).map (fun c => c / p.sum)).countP (fun c => decide (c ≤ u)))

/-- Evaluate `f` over a list left-to-right, propagating the first raised
exception — the semantics of a Python list comprehension whose element
expression may raise. -/
def mapExcept {α β : Type} (f : α → Except String β) : List α → Except String (List β)
  | [] => Except.ok []
  | x :: xs =>
    match f x with
    | Except.error e => Except.error e
    | Except.ok y =>
      match mapExcept f xs with
      | Except.error e => Except.error e
      | Except.ok ys => Except.ok (y :: ys)

/-- `T[i, :].toarray().ravel()`: dense row `i` of the sparse transition matrix. -/
def rowOf (T : List (List ℚ)) (i : ℕ) : List ℚ := T.getD i []

/-- One sampling step of the walk loop, i.e. the list comprehension
`[np.random.choice(n_nodes, p=T[paths[w, t], :] …) for w in range(n_walks)]`:
walk `w` consumes draw number `base + w` of the ambient stream and moves from
its current node `cur[w]` to a categorical sample of row `cur[w]` of `T`. -/
def sampleStep (T : List (List ℚ)) (n_nodes : ℕ) (us : ℕ → ℚ) (base : ℕ)
    (n_walks : ℕ) (cur : List ℕ) : Except String (List ℕ) :=
  mapExcept (fun w => np_choice n_nodes (rowOf T (cur.getD w 0)) (us (base + w)))
    (List.range n_walks)

/-- The walk loop `for t in range(walk_length): paths[:, t+1] = …`, returning
the successive columns of `paths`: element `t` of the result is the vector of
positions of all walks at time `t`.  `t` is the current time, `fuel` the number
of remaining steps; step `t` consumes draws `t * n_walks + w` of the stream. -/
def runWalkCols (T : List (List ℚ)) (n_nodes n_walks : ℕ) (us : ℕ → ℚ) :
    ℕ → ℕ → List ℕ → Except String (List (List ℕ))
  | _, 0, cur => Except.ok [cur]
  | t, fuel + 1, cur =>
    match sampleStep T n_nodes us (t * n_walks) n_walks cur with
    | Except.error e => Except.error e
    | Except.ok next =>
      match runWalkCols T n_nodes n_walks us (t + 1) fuel next with
      | Except.error e => Except.error e
      | Except.ok rest => Except.ok (cur :: rest)

/-- Reassemble the per-walk rows `paths[w] = [paths[w][0], …, paths[w][L]]`
from the per-time columns produced by `runWalkCols`. -/
def transposeCols (n_walks : ℕ) (cols : List (List ℕ)) : List (List ℕ) :=
  (List.range n_walks).map (fun w => cols.map (fun col => col.getD w 0))

/-- Entry `paths[w][t]` of a path array. -/
def pathEntry (paths : List (List ℕ)) (w t : ℕ) : ℕ := (paths.getD w []).getD t 0

/-- Modelled from the spec: `groups_to_bool` (in `evolocity.tools.utils`, which
is not part of the excerpt) resolves the requested group into a boolean
node-membership mask over the full node set.  Per the spec's Group Partitioner
contract: "If no grouping key is set, the mask is all-`True`"; otherwise a node
is a member exactly when its grouping-column value equals the requested
category label. -/
def groups_to_bool (obs : ℕ → String) (groups : Option String) : ℕ → Bool :=
  fun i =>
    match groups with
    | none => true
    | some g => obs i == g

/-- `np.argwhere(node_subset).ravel()`: the ascending list of global node
indices at which the mask is `True` — the local→global index map. -/
def argwhere (mask : ℕ → Bool) (N : ℕ) : List ℕ := (List.range N).filter mask

/-- The host `AnnData` object, restricted to what the core reads and writes:
the node count `N`, the grouping column `obs` (value of the `groupby` field per
node), the category list `cats` (`adata.obs[groupby].cat.categories`), and the
path store `uns` mapping string keys to stored path arrays. -/
structure AData where
  N : ℕ
  obs : ℕ → String
  cats : List String
  uns : List (String × List (List ℕ))

/-- `adata.uns[key] = value`: last-write-wins keyed store update. -/
def setStore (uns : List (String × List (List ℕ))) (k : String)
    (v : List (List ℕ)) : List (String × List (List ℕ)) :=
  uns.filter (fun p => !(p.1 == k)) ++ [(k, v)]

/-- `group_map[np.array(paths[w], dtype=np.int32)]`: remap one local-index row
through the local→global map, raising `IndexError` on an out-of-range index as
NumPy fancy indexing does. -/
def remapRow (gmap : List ℕ) (row : List ℕ) : Except String (List ℕ) :=
  mapExcept
    (fun i =>
      if h : i < gmap.length then Except.ok (gmap.get ⟨i, h⟩)
      else Except.error "IndexError: index out of bounds")
    row

/-- The effective `groups` value inside the loop body after
`groups = cat if cat is not None else groups`. -/
def effGroups (cat groups0 : Option String) : Option String :=
  match cat with
  | some c => some c
  | none => groups0

/-- The storage key for one category:
`group_path_key = path_key` plus `f"_{cat}"` when `cat is not None`. -/
def keyOf (path_key : String) (cat : Option String) : String :=
  match cat with
  | some c => path_key ++ "_" ++ c
  | none => path_key

/-- One iteration of `for cat in categories:` in `random_walk`.  The loop state
is `(uns store, warnings emitted so far, ambient-RNG draw counter)`.  Mirrors
the source: resolve the mask; skip with a warning if the root is not in the
subset (indexing the size-`N` mask with an out-of-range root raises
`IndexError`); compute the root's local rank; fetch `T` from the provider and
assert it is square of the subset size; run the sampling loop; remap local
indices through `group_map = np.argwhere(node_subset).ravel()`; `np.vstack` the
rows (raising when there are none); store under the group-qualified key. -/
def processCategory (obs : ℕ → String) (N root_node walk_length n_walks : ℕ)
    (path_key : String) (groups0 : Option String)
    (Tprov : Option String → List (List ℚ)) (us : ℕ → ℚ)
    (st : List (String × List (List ℕ)) × List String × ℕ) (cat : Option String) :
    Except String (List (String × List (List ℕ)) × List String × ℕ) :=
  let groups := effGroups cat groups0
  let node_subset := groups_to_bool obs groups
  if N ≤ root_node then Except.error "IndexError: index out of bounds"
  else if node_subset root_node = false then
    Except.ok (st.1, st.2.1 ++ ["Root node not in grouped subset, skipping."], st.2.2)
  else
    let root_node_group := (List.range root_node).countP node_subset
    let T := Tprov groups
    let n_nodes : ℕ :=
      match groups with
      | none => N
      | some _ => (argwhere node_subset N).length
    if T.length = n_nodes ∧ ∀ r ∈ T, r.length = n_nodes then
      match runWalkCols T n_nodes n_walks (fun k => us (st.2.2 + k)) 0 walk_length
          (List.replicate n_walks root_node_group) with
      | Except.error e => Except.error e
      | Except.ok cols =>
        let group_map := argwhere node_subset N
        match mapExcept (remapRow group_map) (transposeCols n_walks cols) with
        | Except.error e => Except.error e
        | Except.ok paths =>
          if n_walks = 0 then
            Except.error "ValueError: need at least one array to concatenate"
          else
            Except.ok (setStore st.1 (keyOf path_key cat) paths, st.2.1,
              st.2.2 + walk_length * n_walks)
    else Except.error "AssertionError"

/-- Left fold propagating the first raised exception — the semantics of the
`for cat in categories:` loop over the shared mutable state. -/
def foldE {σ α : Type} (f : σ → α → Except String σ) : σ → List α → Except String σ
  | s, [] => Except.ok s
  | s, x :: xs =>
    match f s x with
    | Except.error e => Except.error e
    | Except.ok s' => foldE f s' xs

/-- The category list iterated by `random_walk`: `[None]` unless a `groupby`
key is set and no explicit `groups` selection is given, in which case the
distinct categories of the grouping field. -/
def categoriesOf (cats : List String) (groupby groups : Option String) :
    List (Option String) :=
  match groupby, groups with
  | some _, none => cats.map some
  | _, _ => [none]

/-- `random_walk` from `src/evolocity/tools/random_walk.py`.  The external
Transition Matrix Provider (`transition_matrix`, with `vkey`,
`backward = not forward_walk` and the `self_transitions` kwarg folded in) is
the parameter `Tprov`, queried per category with the effective `groups` value;
`us` is the ambient global NumPy random stream.  Note that the `random_state`
parameter, although documented as "Seed used by the random number generator",
is never read by the body.  Returns the updated dataset together with the
ordered list of warnings emitted (the `groupby` advisory and any per-category
skip warnings). -/
def random_walk (adata : AData) (root_node walk_length n_walks : ℕ)
    (forward_walk : Bool) (path_key : String) (groupby groups : Option String)
    (self_transitions : Bool) (random_state : ℤ) (copy : Bool)
    (Tprov : Option String → List (List ℚ)) (us : ℕ → ℚ) :
    Except String (AData × List String) :=
  let warns0 : List String :=
    match groupby with
    | some _ =>
      ["Only set groupby, when you have evident distinct clusters/lineages, each with an own root and end point."]
    | none => []
  match foldE
      (processCategory adata.obs adata.N root_node walk_length n_walks path_key
        groups Tprov us)
      (adata.uns, warns0, 0) (categoriesOf adata.cats groupby groups) with
  | Except.error e => Except.error e
  | Except.ok st => Except.ok ({ adata with uns := st.1 }, st.2.1)

/-- The host dataset as seen by `velocity_model`: its `uns` mapping from keys
to (loaded) models, a model being identified here by its name. -/
structure MData where
  uns : List (String × String)

/-- The module-level global names defined by
`src/evolocity/tools/velocity_model.py`: the imported `get_model` and the
function `velocity_model` itself.  The name `data` is not among them. -/
def velocity_model_globals : List String := ["get_model", "velocity_model"]

/-- `velocity_model` from `src/evolocity/tools/velocity_model.py`.  The body
runs `adata = adata.copy() if copy else adata`, then
`model = get_model(model_name)`, then attempts `data.uns[mkey] = model`; the
name `data` resolves against the module globals, is not defined there, and so
this statement raises `NameError` before anything is stored.  The result pairs
the returned value (`Except`) with the final state of the caller's `adata`
object, which no statement has mutated. -/
def velocity_model (adata : MData) (model_name mkey : String) (copy : Bool)
    (get_model : String → String) : Except String (Option MData) × MData :=
  let adata_local := if copy then adata else adata
  let _model := get_model model_name
  if "data" ∈ velocity_model_globals then
    (Except.ok (if copy then some adata_local else none), adata)
  else (Except.error "NameError: name data is not defined", adata)

/-! ### Concrete instances used by counterexamples and witnesses -/

/-- A constant grouping column: every node belongs to category `"A"`. -/
def cObs : ℕ → String := fun _ => "A"

/-- A one-node dataset with an empty path store. -/
def cAD : AData := ⟨1, cObs, [], []⟩

/-- Provider returning the 1×1 transition matrix `[[1]]` for every subset. -/
def cTprov : Option String → List (List ℚ) := fun _ => [[1]]

/-- An ambient random stream whose draws are all `0`. -/
def cUs : ℕ → ℚ := fun _ => 0

/-- A two-node dataset with an empty path store. -/
def cAD2 : AData := ⟨2, cObs, [], []⟩

/-- Provider returning the doubly uniform 2×2 transition matrix. -/
def cTprov2 : Option String → List (List ℚ) := fun _ => [[1/2, 1/2], [1/2, 1/2]]

/-- An ambient random stream whose draws are all `3/4`. -/
def cUsB : ℕ → ℚ := fun _ => 3/4

/-- Provider for the deterministic 2×2 chain `0 → 1 → 1`. -/
def cTprov3 : Option String → List (List ℚ) := fun _ => [[0, 1], [0, 1]]

/-- A one-node dataset carrying two categories `["A", "B"]` in its grouping
field, with an empty path store. -/
def cAD9 : AData := ⟨1, cObs, ["A", "B"], []⟩

/-- Everything the spec asserts about one stored path array: it has
`n_walks` rows of `walk_length + 1` entries each, every row starts at the
global root index, and every entry is a valid global index lying inside the
category's mask. -/
def GoodArr (N root_node walk_length n_walks : ℕ) (mask : ℕ → Bool)
    (arr : List (List ℕ)) : Prop :=
  arr.length = n_walks ∧ ∀ row ∈ arr, row.length = walk_length + 1 ∧
    row.head? = some root_node ∧ ∀ e ∈ row, e < N ∧ mask e = true

/-! ### Proofs -/

attribute [local semireducible] Rat.add Rat.sub Rat.mul Rat.inv Rat.ofScientific

/-- Every partial sum of a non-negative list is at least the starting offset. -/
theorem cumsumFrom_le_mem (p : List ℚ) : ∀ (a : ℚ), (∀ q ∈ p, 0 ≤ q) →
    ∀ c ∈ cumsumFrom a p, a ≤ c := by
  induction p with
  | nil => intro a _ c hc; simp [cumsumFrom] at hc
  | cons x xs ih =>
    intro a hnn c hc
    have hx : 0 ≤ x := hnn x (List.mem_cons_self x xs)
    simp only [cumsumFrom, List.mem_cons] at hc
    rcases hc with rfl | hc
    · linarith
    · have := ih (a + x) (fun q hq => hnn q (List.mem_cons_of_mem _ hq)) c hc
      linarith

/-- Inverse-CDF sampling over a non-negative weight list with partial sums
starting at `a` picks an index whose weight is strictly positive, whenever the
draw `u` lies in `[a, a + sum)`. -/
theorem cumsumFrom_countP_pos (p : List ℚ) : ∀ (a u : ℚ), (∀ q ∈ p, 0 ≤ q) →
    a ≤ u → u < a + p.sum →
    ∃ q, p.get? ((cumsumFrom a p).countP (fun c => decide (c ≤ u))) = some q ∧ 0 < q := by
  induction p with
  | nil => intro a u _ hau hu; simp only [List.sum_nil, add_zero] at hu; linarith
  | cons x xs ih =>
    intro a u hnn hau hu
    by_cases hx : a + x ≤ u
    · have hs : u < (a + x) + xs.sum := by
        simp only [List.sum_cons] at hu; linarith
      obtain ⟨q, hq, hq0⟩ :=
        ih (a + x) u (fun q hq => hnn q (List.mem_cons_of_mem _ hq)) hx hs
      refine ⟨q, ?_, hq0⟩
      simp only [cumsumFrom, List.countP_cons, decide_eq_true_eq, hx, if_true]
      simpa using hq
    · have hcount : (cumsumFrom (a + x) xs).countP (fun c => decide (c ≤ u)) = 0 := by
        refine List.countP_eq_zero.mpr ?_
        intro c hc
        have := cumsumFrom_le_mem xs (a + x)
          (fun q hq => hnn q (List.mem_cons_of_mem _ hq)) c hc
        simp only [decide_eq_true_eq]
        intro h
        exact hx (le_trans this h)
      refine ⟨x, ?_, ?_⟩
      · simp only [cumsumFrom, List.countP_cons, hcount, decide_eq_true_eq, hx, if_false]
        rfl
      · have : u < a + x := lt_of_not_le hx
        linarith

/-- A successful `np.random.choice` call certifies its own input checks:
the row had the requested size, was non-negative, and summed to 1 within
`atol`; and the returned index is the inverse-CDF insertion point. -/
theorem np_choice_ok_elim (n : ℕ) (p : List ℚ) (u : ℚ) (i : ℕ)
    (h : np_choice n p u = Except.ok i) :
    p.length = n ∧ (∀ q ∈ p, 0 ≤ q) ∧ |p.sum - 1| ≤ atol ∧
      i = ((cumsum p).map (fun c => c / p.sum)).countP (fun c => decide (c ≤ u)) := by
  unfold np_choice at h
  split at h
  · exact absurd h (by simp)
  · split at h
    · exact absurd h (by simp)
    · split at h
      · exact absurd h (by simp)
      · rename_i hlen hneg hsum
        refine ⟨by omega, ?_, ?_, ?_⟩
        · intro q hq
          by_contra hq0
          exact hneg (List.any_eq_true.mpr ⟨q, hq, by simp; linarith⟩)
        · simpa using hsum
        · exact (Except.ok.injEq _ _).mp h.symm

/-- A successful `np.random.choice` draw with a uniform `u ∈ [0,1)` lands on an
index of strictly positive probability. -/
theorem np_choice_ok_pos (n : ℕ) (p : List ℚ) (u : ℚ) (i : ℕ)
    (h : np_choice n p u = Except.ok i) (h0 : 0 ≤ u) (h1 : u < 1) :
    ∃ q, p.get? i = some q ∧ 0 < q := by
  obtain ⟨-, hnn, hsum, hi⟩ := np_choice_ok_elim n p u i h
  have hatol : atol < 1 := by norm_num [atol]
  have hS : 0 < p.sum := by
    have := abs_le.mp hsum
    have h2 := this.1
    norm_num [atol] at h2 ⊢
    linarith
  have hmap : ((cumsum p).map (fun c => c / p.sum)).countP (fun c => decide (c ≤ u))
      = (cumsum p).countP (fun c => decide (c ≤ u * p.sum)) := by
    rw [List.countP_map]
    refine List.countP_congr ?_
    intro c _
    simp only [Function.comp_apply, decide_eq_true_eq]
    exact div_le_iff₀ hS
  rw [hi, hmap]
  exact cumsumFrom_countP_pos p 0 (u * p.sum) hnn (mul_nonneg h0 hS.le)
    (by simpa using mul_lt_of_lt_one_left hS h1)

/-- Cons inversion for `mapExcept`. -/
theorem mapExcept_ok_cons {α β : Type} (f : α → Except String β) (x : α) (xs : List α)
    (l2 : List β) (h : mapExcept f (x :: xs) = Except.ok l2) :
    ∃ y ys, l2 = y :: ys ∧ f x = Except.ok y ∧ mapExcept f xs = Except.ok ys := by
  cases hfx : f x with
  | error e =>
    simp only [mapExcept, hfx] at h
    exact Except.noConfusion h
  | ok y =>
    cases hxs : mapExcept f xs with
    | error e =>
      simp only [mapExcept, hfx, hxs] at h
      exact Except.noConfusion h
    | ok ys =>
      simp only [mapExcept, hfx, hxs, Except.ok.injEq] at h
      exact ⟨y, ys, h.symm, rfl, rfl⟩

/-- `mapExcept` preserves length on success. -/
theorem mapExcept_ok_length {α β : Type} (f : α → Except String β) :
    ∀ (l : List α) (l2 : List β), mapExcept f l = Except.ok l2 → l2.length = l.length := by
  intro l
  induction l with
  | nil => intro l2 h; simp only [mapExcept, Except.ok.injEq] at h; simp [← h]
  | cons x xs ih =>
    intro l2 h
    obtain ⟨y, ys, rfl, -, hys⟩ := mapExcept_ok_cons f x xs l2 h
    simp [ih ys hys]

/-- Every element produced by a successful `mapExcept` is the successful image
of an element of the input list. -/
theorem mapExcept_ok_mem {α β : Type} (f : α → Except String β) :
    ∀ (l : List α) (l2 : List β), mapExcept f l = Except.ok l2 →
      ∀ y ∈ l2, ∃ x ∈ l, f x = Except.ok y := by
  intro l
  induction l with
  | nil =>
    intro l2 h y hy
    simp only [mapExcept, Except.ok.injEq] at h
    rw [← h] at hy
    simp at hy
  | cons x xs ih =>
    intro l2 h y hy
    obtain ⟨z, zs, rfl, hz, hzs⟩ := mapExcept_ok_cons f x xs l2 h
    rcases List.mem_cons.mp hy with rfl | hy2
    · exact ⟨x, List.mem_cons_self x xs, hz⟩
    · obtain ⟨w, hw, hfw⟩ := ih zs hzs y hy2
      exact ⟨w, List.mem_cons_of_mem _ hw, hfw⟩

/-- Pointwise success characterization of `mapExcept`. -/
theorem mapExcept_ok_get {α β : Type} (f : α → Except String β) :
    ∀ (l : List α) (l2 : List β), mapExcept f l = Except.ok l2 →
      ∀ i, i < l.length →
        ∃ x y, l.get? i = some x ∧ l2.get? i = some y ∧ f x = Except.ok y := by
  intro l
  induction l with
  | nil => intro l2 h i hi; simp at hi
  | cons x xs ih =>
    intro l2 h i hi
    obtain ⟨y, ys, rfl, hy, hys⟩ := mapExcept_ok_cons f x xs l2 h
    cases i with
    | zero => exact ⟨x, y, rfl, rfl, hy⟩
    | succ j =>
      obtain ⟨a, b, ha, hb, hab⟩ := ih ys hys j (by simpa using hi)
      exact ⟨a, b, by simpa using ha, by simpa using hb, hab⟩

/-- Success inversion for one level of the walk loop. -/
theorem runWalkCols_ok_cons (T : List (List ℚ)) (n_nodes n_walks : ℕ) (us : ℕ → ℚ)
    (t fuel : ℕ) (cur : List ℕ) (cols : List (List ℕ))
    (h : runWalkCols T n_nodes n_walks us t (fuel + 1) cur = Except.ok cols) :
    ∃ next rest, cols = cur :: rest ∧
      sampleStep T n_nodes us (t * n_walks) n_walks cur = Except.ok next ∧
      runWalkCols T n_nodes n_walks us (t + 1) fuel next = Except.ok rest := by
  cases hstep : sampleStep T n_nodes us (t * n_walks) n_walks cur with
  | error e =>
    simp only [runWalkCols, hstep] at h
    exact Except.noConfusion h
  | ok next =>
    cases hrest : runWalkCols T n_nodes n_walks us (t + 1) fuel next with
    | error e =>
      simp only [runWalkCols, hstep, hrest] at h
      exact Except.noConfusion h
    | ok rest =>
      simp only [runWalkCols, hstep, hrest, Except.ok.injEq] at h
      exact ⟨next, rest, h.symm, rfl, hrest⟩

/-- A successful walk loop with `fuel` remaining steps yields `fuel + 1`
columns. -/
theorem runWalkCols_ok_length (T : List (List ℚ)) (n_nodes n_walks : ℕ) (us : ℕ → ℚ) :
    ∀ (fuel t : ℕ) (cur : List ℕ) (cols : List (List ℕ)),
      runWalkCols T n_nodes n_walks us t fuel cur = Except.ok cols →
      cols.length = fuel + 1 := by
  intro fuel
  induction fuel with
  | zero =>
    intro t cur cols h
    simp only [runWalkCols, Except.ok.injEq] at h
    simp [← h]
  | succ f ih =>
    intro t cur cols h
    obtain ⟨next, rest, rfl, -, hrest⟩ := runWalkCols_ok_cons T n_nodes n_walks us t f cur cols h
    simp [ih (t + 1) next rest hrest]

/-- The first column of a successful walk loop is the start vector. -/
theorem runWalkCols_ok_head (T : List (List ℚ)) (n_nodes n_walks : ℕ) (us : ℕ → ℚ)
    (fuel t : ℕ) (cur : List ℕ) (cols : List (List ℕ))
    (h : runWalkCols T n_nodes n_walks us t fuel cur = Except.ok cols) :
    cols.head? = some cur := by
  cases fuel with
  | zero =>
    simp only [runWalkCols, Except.ok.injEq] at h
    simp [← h]
  | succ f =>
    obtain ⟨next, rest, rfl, -, -⟩ := runWalkCols_ok_cons T n_nodes n_walks us t f cur cols h
    rfl

/-- In a successful walk loop, the position of walk `w` at time `j + 1` is the
`np.random.choice` draw from row `paths[w][j]` of `T`, consuming uniform draw
number `(t + j) * n_walks + w` of the stream (`t` being the starting time). -/
theorem runWalkCols_ok_consec (T : List (List ℚ)) (n_nodes n_walks : ℕ) (us : ℕ → ℚ) :
    ∀ (fuel t : ℕ) (cur : List ℕ) (cols : List (List ℕ)),
      runWalkCols T n_nodes n_walks us t fuel cur = Except.ok cols →
      ∀ j, j < fuel → ∀ w, w < n_walks →
        np_choice n_nodes (rowOf T ((cols.getD j []).getD w 0)) (us ((t + j) * n_walks + w))
          = Except.ok ((cols.getD (j + 1) []).getD w 0) := by
  intro fuel
  induction fuel with
  | zero => intro t cur cols h j hj; omega
  | succ f ih =>
    intro t cur cols h j hj w hw
    obtain ⟨next, rest, rfl, hstep, hrest⟩ :=
      runWalkCols_ok_cons T n_nodes n_walks us t f cur cols h
    cases j with
    | zero =>
      have hhead : rest.head? = some next :=
        runWalkCols_ok_head T n_nodes n_walks us f (t + 1) next rest hrest
      obtain ⟨rtail, rfl⟩ := List.head?_eq_some_iff.mp hhead
      obtain ⟨x, y, hx, hy, hxy⟩ :=
        mapExcept_ok_get _ (List.range n_walks) next hstep w (by simpa using hw)
      rw [List.get?_range hw] at hx
      cases hx
      have hyd : next.getD w 0 = y := by
        rw [List.get?_eq_getElem?] at hy
        simp [List.getD_eq_getElem?_getD, hy]
      simp only [List.getD_cons_zero, List.getD_cons_succ]
      rw [hyd]
      simpa using hxy
    | succ i =>
      have := ih (t + 1) next rest hrest i (by omega) w hw
      have harith : t + 1 + i = t + (i + 1) := by omega
      rw [harith] at this
      simpa using this

/-- Entry `(w, t)` of the transposed path array is entry `(t, w)` of the
column list. -/
theorem transposeCols_entry (n_walks : ℕ) (cols : List (List ℕ)) (w t : ℕ)
    (hw : w < n_walks) (ht : t < cols.length) :
    pathEntry (transposeCols n_walks cols) w t = (cols.getD t []).getD w 0 := by
  have h1 : (transposeCols n_walks cols).getD w [] = cols.map (fun col => col.getD w 0) := by
    simp [transposeCols, List.getD_eq_getElem?_getD, List.getElem?_map,
      List.getElem?_range hw]
  rw [pathEntry, h1]
  rw [List.getD_eq_getElem?_getD, List.getElem?_map, List.getElem?_eq_getElem ht]
  rw [List.getD_eq_getElem?_getD cols, List.getElem?_eq_getElem ht]
  rfl

/-- C2: every consecutive pair `(paths[w][t], paths[w][t+1])` produced by the
sampling loop has strictly positive probability in row `paths[w][t]` of `T`:
the sampler never moves along a zero-probability edge.  The hypothesis on `us`
is the ambient-stream axiomatization: NumPy uniform draws lie in `[0,1)`. -/
theorem rw_never_walks_zero_prob_edge (T : List (List ℚ))
    (n_nodes root_local walk_length n_walks : ℕ) (us : ℕ → ℚ)
    (hu : ∀ k, 0 ≤ us k ∧ us k < 1) (cols : List (List ℕ))
    (hrun : runWalkCols T n_nodes n_walks us 0 walk_length
      (List.replicate n_walks root_local) = Except.ok cols)
    (w t : ℕ) (hw : w < n_walks) (ht : t < walk_length) :
    ∃ q, (rowOf T (pathEntry (transposeCols n_walks cols) w t)).get?
        (pathEntry (transposeCols n_walks cols) w (t + 1)) = some q ∧ 0 < q := by
  have hlen : cols.length = walk_length + 1 :=
    runWalkCols_ok_length T n_nodes n_walks us walk_length 0 _ cols hrun
  have ht1 : t < cols.length := by omega
  have ht2 : t + 1 < cols.length := by omega
  rw [transposeCols_entry n_walks cols w t hw ht1,
    transposeCols_entry n_walks cols w (t + 1) hw ht2]
  have hcons := runWalkCols_ok_consec T n_nodes n_walks us walk_length 0 _ cols hrun
    t ht w hw
  simp only [Nat.zero_add] at hcons
  exact np_choice_ok_pos n_nodes _ _ _ hcons (hu _).1 (hu _).2

/-- Concrete check of `rw_never_walks_zero_prob_edge` on the 2-node chain
`0 → 1 → 1` with one walk of one step and a zero draw stream. -/
theorem rw_never_walks_zero_prob_edge_witness :
    ∃ q, (rowOf [[0, 1], [0, 1]] (pathEntry (transposeCols 1 [[0], [1]]) 0 0)).get?
        (pathEntry (transposeCols 1 [[0], [1]]) 0 1) = some q ∧ 0 < q :=
  rw_never_walks_zero_prob_edge [[0, 1], [0, 1]] 2 0 1 1 cUs
    (fun k => ⟨by norm_num [cUs], by norm_num [cUs]⟩) [[0], [1]] (by rfl) 0 0
    (by norm_num) (by norm_num)

/-- Indexing an append at the length of the left part hits the next element. -/
theorem getD_append_length {α : Type} (d : α) :
    ∀ (l1 : List α) (a : α) (l2 : List α), (l1 ++ a :: l2).getD l1.length d = a := by
  intro l1
  induction l1 with
  | nil => intro a l2; rfl
  | cons x xs ih => intro a l2; simpa using ih a l2

/-- Splitting `np.argwhere(mask)` at a `True` position `r`: the entries before
`r` are exactly the `True` positions below `r`. -/
theorem argwhere_split (mask : ℕ → Bool) (N r : ℕ) (hr : r < N) (hm : mask r = true) :
    ∃ l2, argwhere mask N = (List.range r).filter mask ++ r :: l2 := by
  have hN : N = r + (N - r) := by omega
  have hk : N - r = (N - r - 1) + 1 := by omega
  rw [argwhere, hN, List.range_add, List.filter_append, hk, List.range_succ_eq_map]
  simp only [List.map_cons, Nat.add_zero, List.filter_cons, hm, if_true]
  exact ⟨_, rfl⟩

/-- The rank of a `True` position `r` (the count of `True` entries strictly
below `r`) indexes back to `r` in the local→global map. -/
theorem argwhere_rank (mask : ℕ → Bool) (N r : ℕ) (hr : r < N) (hm : mask r = true) :
    (List.range r).countP mask < (argwhere mask N).length ∧
      (argwhere mask N).getD ((List.range r).countP mask) 0 = r := by
  obtain ⟨l2, hsplit⟩ := argwhere_split mask N r hr hm
  rw [hsplit, List.countP_eq_length_filter]
  refine ⟨?_, getD_append_length 0 _ r l2⟩
  simp only [List.length_append, List.length_cons]
  omega

/-- Membership in `np.argwhere(mask).ravel()` means: a valid global index at
which the mask is `True`. -/
theorem argwhere_mem (mask : ℕ → Bool) (N e : ℕ) (h : e ∈ argwhere mask N) :
    e < N ∧ mask e = true := by
  simp only [argwhere, List.mem_filter, List.mem_range] at h
  exact h

/-- Rows of the transposed column list. -/
theorem transposeCols_mem (n_walks : ℕ) (cols : List (List ℕ)) (trow : List ℕ)
    (h : trow ∈ transposeCols n_walks cols) :
    ∃ w, w < n_walks ∧ trow = cols.map (fun col => col.getD w 0) := by
  simp only [transposeCols, List.mem_map, List.mem_range] at h
  obtain ⟨w, hw, rfl⟩ := h
  exact ⟨w, hw, rfl⟩

/-- The remapped output of a successful sampling loop started at the root's
local rank satisfies `GoodArr`. -/
theorem sampled_paths_good (T : List (List ℚ)) (mask : ℕ → Bool)
    (N n_nodes root_node walk_length n_walks : ℕ) (us2 : ℕ → ℚ)
    (hr : root_node < N) (hm : mask root_node = true)
    (cols : List (List ℕ))
    (hrun : runWalkCols T n_nodes n_walks us2 0 walk_length
      (List.replicate n_walks ((List.range root_node).countP mask)) = Except.ok cols)
    (paths : List (List ℕ))
    (hremap : mapExcept (remapRow (argwhere mask N)) (transposeCols n_walks cols)
      = Except.ok paths) :
    GoodArr N root_node walk_length n_walks mask paths := by
  have hcolslen := runWalkCols_ok_length T n_nodes n_walks us2 walk_length 0 _ cols hrun
  have hhead := runWalkCols_ok_head T n_nodes n_walks us2 walk_length 0 _ cols hrun
  constructor
  · rw [mapExcept_ok_length _ _ _ hremap]
    simp [transposeCols]
  · intro row hrow
    obtain ⟨trow, htrow, hrowok⟩ := mapExcept_ok_mem _ _ _ hremap row hrow
    obtain ⟨w, hw, rfl⟩ := transposeCols_mem n_walks cols trow htrow
    refine ⟨?_, ?_, ?_⟩
    · have : row.length = (cols.map (fun col => col.getD w 0)).length :=
        mapExcept_ok_length _ _ _ hrowok
      simpa [hcolslen] using this
    · obtain ⟨c0tail, hc0⟩ := List.head?_eq_some_iff.mp hhead
      rw [hc0, List.map_cons] at hrowok
      obtain ⟨e0, rest, rfl, hf, -⟩ := mapExcept_ok_cons _ _ _ _ hrowok
      have hrepl : (List.replicate n_walks ((List.range root_node).countP mask)).getD w 0
          = (List.range root_node).countP mask := by
        simp [List.getD_eq_getElem?_getD, List.getElem?_replicate_of_lt hw]
      rw [hrepl] at hf
      obtain ⟨hlt, hget⟩ := argwhere_rank mask N root_node hr hm
      rw [dif_pos hlt] at hf
      have he0 : (argwhere mask N).get ⟨_, hlt⟩ = e0 := by
        simpa using hf
      have : e0 = root_node := by
        rw [← he0, List.get_eq_getElem, ← List.getD_eq_getElem _ 0 hlt, hget]
      simp [this]
    · intro e he
      obtain ⟨i, hi, hfi⟩ := mapExcept_ok_mem _ _ _ hrowok e he
      by_cases hlt : i < (argwhere mask N).length
      · rw [dif_pos hlt] at hfi
        have hie : (argwhere mask N).get ⟨i, hlt⟩ = e := by simpa using hfi
        exact argwhere_mem mask N e (hie ▸ List.get_mem _ i hlt)
      · rw [dif_neg hlt] at hfi
        exact absurd hfi (by simp)

/-- Master inversion for one category iteration: on success, every entry of
the resulting store is either an old entry or the freshly stored path set for
this category, stored under the group-qualified key and satisfying `GoodArr`
for this category's mask. -/
theorem processCategory_ok_spec (obs : ℕ → String)
    (N root_node walk_length n_walks : ℕ) (path_key : String)
    (groups0 : Option String) (Tprov : Option String → List (List ℚ)) (us : ℕ → ℚ)
    (uns : List (String × List (List ℕ))) (ws : List String) (off : ℕ)
    (cat : Option String)
    (uns2 : List (String × List (List ℕ))) (ws2 : List String) (off2 : ℕ)
    (h : processCategory obs N root_node walk_length n_walks path_key groups0 Tprov us
      (uns, ws, off) cat = Except.ok (uns2, ws2, off2)) :
    ∀ kv ∈ uns2, kv ∈ uns ∨ (kv.1 = keyOf path_key cat ∧
      GoodArr N root_node walk_length n_walks
        (groups_to_bool obs (effGroups cat groups0)) kv.2) := by
  simp only [processCategory] at h
  split at h
  · exact Except.noConfusion h
  · split at h
    · simp only [Except.ok.injEq, Prod.mk.injEq] at h
      intro kv hkv
      rw [← h.1] at hkv
      exact Or.inl hkv
    · rename_i hroot hmask
      split at h
      · split at h
        · exact Except.noConfusion h
        · rename_i hT cols hcols
          split at h
          · exact Except.noConfusion h
          · rename_i paths hpaths
            split at h
            · exact Except.noConfusion h
            · simp only [Except.ok.injEq, Prod.mk.injEq] at h
              intro kv hkv
              rw [← h.1] at hkv
              rcases List.mem_append.mp hkv with hold | hnew
              · exact Or.inl (List.mem_filter.mp hold).1
              · right
                have hkveq : kv = (keyOf path_key cat, paths) := by simpa using hnew
                subst hkveq
                refine ⟨rfl, ?_⟩
                exact sampled_paths_good (Tprov (effGroups cat groups0))
                  (groups_to_bool obs (effGroups cat groups0)) N _ root_node
                  walk_length n_walks _ (by omega)
                  (by simpa using hmask) cols hcols paths hpaths
      · exact Except.noConfusion h

/-- Fold invariant over the category loop: every entry of the final store is
an initial entry or a well-formed path set stored for one of the iterated
categories. -/
theorem foldE_processCategory_spec (obs : ℕ → String)
    (N root_node walk_length n_walks : ℕ) (path_key : String)
    (groups0 : Option String) (Tprov : Option String → List (List ℚ)) (us : ℕ → ℚ) :
    ∀ (cats : List (Option String)) (uns : List (String × List (List ℕ)))
      (ws : List String) (off : ℕ)
      (uns2 : List (String × List (List ℕ))) (ws2 : List String) (off2 : ℕ),
      foldE (processCategory obs N root_node walk_length n_walks path_key groups0 Tprov us)
        (uns, ws, off) cats = Except.ok (uns2, ws2, off2) →
      ∀ kv ∈ uns2, kv ∈ uns ∨ ∃ cat ∈ cats, kv.1 = keyOf path_key cat ∧
        GoodArr N root_node walk_length n_walks
          (groups_to_bool obs (effGroups cat groups0)) kv.2 := by
  intro cats
  induction cats with
  | nil =>
    intro uns ws off uns2 ws2 off2 h kv hkv
    simp only [foldE, Except.ok.injEq, Prod.mk.injEq] at h
    rw [← h.1] at hkv
    exact Or.inl hkv
  | cons c cs ih =>
    intro uns ws off uns2 ws2 off2 h kv hkv
    rw [foldE] at h
    cases hc : processCategory obs N root_node walk_length n_walks path_key groups0 Tprov us
        (uns, ws, off) c with
    | error e =>
      rw [hc] at h
      exact Except.noConfusion h
    | ok s1 =>
      rw [hc] at h
      obtain ⟨u1, w1, o1⟩ := s1
      rcases ih u1 w1 o1 uns2 ws2 off2 h kv hkv with hin | ⟨cat, hcat, hrest⟩
      · rcases processCategory_ok_spec obs N root_node walk_length n_walks path_key
            groups0 Tprov us uns ws off c u1 w1 o1 hc kv hin with hold | hnew
        · exact Or.inl hold
        · exact Or.inr ⟨c, List.mem_cons_self c cs, hnew⟩
      · exact Or.inr ⟨cat, List.mem_cons_of_mem c hcat, hrest⟩

/-- Master inversion for `random_walk`: on success, every entry of the final
path store is either an entry of the initial store or a path set produced for
one of the iterated categories, stored under its group-qualified key and
satisfying `GoodArr` for that category's mask. -/
theorem random_walk_ok_spec (adata : AData) (root_node walk_length n_walks : ℕ)
    (forward_walk : Bool) (path_key : String) (groupby groups : Option String)
    (self_transitions : Bool) (random_state : ℤ) (copy : Bool)
    (Tprov : Option String → List (List ℚ)) (us : ℕ → ℚ)
    (d : AData) (ws : List String)
    (h : random_walk adata root_node walk_length n_walks forward_walk path_key groupby
      groups self_transitions random_state copy Tprov us = Except.ok (d, ws)) :
    ∀ kv ∈ d.uns, kv ∈ adata.uns ∨
      ∃ cat ∈ categoriesOf adata.cats groupby groups, kv.1 = keyOf path_key cat ∧
        GoodArr adata.N root_node walk_length n_walks
          (groups_to_bool adata.obs (effGroups cat groups)) kv.2 := by
  simp only [random_walk] at h
  split at h
  · exact Except.noConfusion h
  · rename_i st hf
    obtain ⟨u1, w1, o1⟩ := st
    simp only [Except.ok.injEq, Prod.mk.injEq] at h
    intro kv hkv
    have hd : d.uns = u1 := by rw [← h.1]
    rw [hd] at hkv
    exact foldE_processCategory_spec adata.obs adata.N root_node walk_length n_walks
      path_key groups Tprov us (categoriesOf adata.cats groupby groups)
      adata.uns _ 0 u1 w1 o1 hf kv hkv

/-- C1: refuted (code bug).  The claim asserts runs with identical
`(T, root, walk_length, n_walks, random_state)` produce bit-identical path
arrays, and the docstring documents `random_state` as "Seed used by the random
number generator" — but the body never reads `random_state`: sampling draws
from the ambient global NumPy stream.  Two runs with all parameters equal
(including `random_state = 0`) but different ambient stream states store
different path arrays. -/
theorem random_walk_ignores_random_state :
    (random_walk cAD2 0 1 1 true "rw_paths" none none false 0 false cTprov2 cUs).map
        (fun r => r.1.uns) = Except.ok [("rw_paths", [[0, 0]])]
  ∧ (random_walk cAD2 0 1 1 true "rw_paths" none none false 0 false cTprov2 cUsB).map
        (fun r => r.1.uns) = Except.ok [("rw_paths", [[0, 1]])] := by
  constructor <;> rfl

/-- C3: for every processed category, every row of the stored (globally
remapped) path array starts at the global root node index: the sampler starts
each walk at the root's local rank (the count of `True` mask entries strictly
below the root), and remapping that rank through the local→global map yields
the root back. -/
theorem random_walk_paths_start_at_root (adata : AData)
    (root_node walk_length n_walks : ℕ) (forward_walk : Bool) (path_key : String)
    (groupby groups : Option String) (self_transitions : Bool) (random_state : ℤ)
    (copy : Bool) (Tprov : Option String → List (List ℚ)) (us : ℕ → ℚ)
    (d : AData) (ws : List String)
    (h : random_walk adata root_node walk_length n_walks forward_walk path_key groupby
      groups self_transitions random_state copy Tprov us = Except.ok (d, ws))
    (hU : adata.uns = []) :
    ∀ kv ∈ d.uns, ∀ row ∈ kv.2, row.head? = some root_node := by
  intro kv hkv row hrow
  rcases random_walk_ok_spec adata root_node walk_length n_walks forward_walk path_key
      groupby groups self_transitions random_state copy Tprov us d ws h kv hkv with
    hold | ⟨cat, -, -, hgood⟩
  · rw [hU] at hold
    simp at hold
  · exact (hgood.2 row hrow).2.1

/-- Concrete check of `random_walk_paths_start_at_root`: the no-grouping
one-node run stores `[[0, 0]]` under `"rw_paths"`, and that row starts at the
root index 0. -/
theorem random_walk_paths_start_at_root_witness : ([0, 0] : List ℕ).head? = some 0 :=
  random_walk_paths_start_at_root cAD 0 1 1 true "rw_paths" none none false 0 false
    cTprov cUs { cAD with uns := [("rw_paths", [[0, 0]])] } [] (by rfl) rfl
    ("rw_paths", [[0, 0]]) (by simp) [0, 0] (by simp)

/-- C4: for every processed category, regardless of grouping, the stored path
array has shape `(n_walks, walk_length + 1)`: the sampler advances exactly
`walk_length` steps and never terminates early. -/
theorem random_walk_paths_shape (adata : AData)
    (root_node walk_length n_walks : ℕ) (forward_walk : Bool) (path_key : String)
    (groupby groups : Option String) (self_transitions : Bool) (random_state : ℤ)
    (copy : Bool) (Tprov : Option String → List (List ℚ)) (us : ℕ → ℚ)
    (d : AData) (ws : List String)
    (h : random_walk adata root_node walk_length n_walks forward_walk path_key groupby
      groups self_transitions random_state copy Tprov us = Except.ok (d, ws))
    (hU : adata.uns = []) :
    ∀ kv ∈ d.uns, kv.2.length = n_walks ∧ ∀ row ∈ kv.2, row.length = walk_length + 1 := by
  intro kv hkv
  rcases random_walk_ok_spec adata root_node walk_length n_walks forward_walk path_key
      groupby groups self_transitions random_state copy Tprov us d ws h kv hkv with
    hold | ⟨cat, -, -, hgood⟩
  · rw [hU] at hold
    simp at hold
  · exact ⟨hgood.1, fun row hrow => (hgood.2 row hrow).1⟩

/-- Concrete check of `random_walk_paths_shape` on the one-walk, one-step,
no-grouping run. -/
theorem random_walk_paths_shape_witness :
    ([[0, 0]] : List (List ℕ)).length = 1 ∧
      ∀ row ∈ ([[0, 0]] : List (List ℕ)), row.length = 1 + 1 :=
  random_walk_paths_shape cAD 0 1 1 true "rw_paths" none none false 0 false
    cTprov cUs { cAD with uns := [("rw_paths", [[0, 0]])] } [] (by rfl) rfl
    ("rw_paths", [[0, 0]]) (by simp)

/-- C6: every entry of every stored path array is a valid global node index in
`[0, N)`, and lies inside the mask of the category that produced the array
(whose key identifies it): the local→global map sends local index `i` to the
`i`-th `True` position of the mask. -/
theorem random_walk_entries_in_mask (adata : AData)
    (root_node walk_length n_walks : ℕ) (forward_walk : Bool) (path_key : String)
    (groupby groups : Option String) (self_transitions : Bool) (random_state : ℤ)
    (copy : Bool) (Tprov : Option String → List (List ℚ)) (us : ℕ → ℚ)
    (d : AData) (ws : List String)
    (h : random_walk adata root_node walk_length n_walks forward_walk path_key groupby
      groups self_transitions random_state copy Tprov us = Except.ok (d, ws))
    (hU : adata.uns = []) :
    ∀ kv ∈ d.uns, ∀ row ∈ kv.2, ∀ e ∈ row, e < adata.N ∧
      ∃ cat ∈ categoriesOf adata.cats groupby groups, kv.1 = keyOf path_key cat ∧
        groups_to_bool adata.obs (effGroups cat groups) e = true := by
  intro kv hkv row hrow e he
  rcases random_walk_ok_spec adata root_node walk_length n_walks forward_walk path_key
      groupby groups self_transitions random_state copy Tprov us d ws h kv hkv with
    hold | ⟨cat, hcat, hkey, hgood⟩
  · rw [hU] at hold
    simp at hold
  · obtain ⟨hlt, hmask⟩ := (hgood.2 row hrow).2.2 e he
    exact ⟨hlt, cat, hcat, hkey, hmask⟩

/-- Concrete check of `random_walk_entries_in_mask` on the no-grouping
one-node run: the entry 0 is in `[0, 1)` and inside the all-`True` mask. -/
theorem random_walk_entries_in_mask_witness :
    (0 : ℕ) < cAD.N ∧ ∃ cat ∈ categoriesOf cAD.cats none none,
      ("rw_paths", ([[0, 0]] : List (List ℕ))).1 = keyOf "rw_paths" cat ∧
        groups_to_bool cAD.obs (effGroups cat none) 0 = true :=
  random_walk_entries_in_mask cAD 0 1 1 true "rw_paths" none none false 0 false
    cTprov cUs { cAD with uns := [("rw_paths", [[0, 0]])] } [] (by rfl) rfl
    ("rw_paths", [[0, 0]]) (by simp) [0, 0] (by simp) 0 (by simp)

/-- C5: a category whose mask is `False` at the root node index is skipped:
the body returns successfully (so the loop proceeds to the remaining
categories), the path store is returned untouched, exactly one warning is
appended, the draw counter is unchanged (no walks sampled), and the result
does not depend on the Transition Matrix Provider or on the random stream
(no matrix is built, no sampling occurs). -/
theorem processCategory_skips_root_not_in_mask (obs : ℕ → String)
    (N root_node walk_length n_walks : ℕ) (path_key : String)
    (groups0 : Option String) (Tprov : Option String → List (List ℚ)) (us : ℕ → ℚ)
    (uns : List (String × List (List ℕ))) (ws : List String) (off : ℕ)
    (cat : Option String) (hr : root_node < N)
    (hm : groups_to_bool obs (effGroups cat groups0) root_node = false) :
    processCategory obs N root_node walk_length n_walks path_key groups0 Tprov us
      (uns, ws, off) cat
      = Except.ok (uns, ws ++ ["Root node not in grouped subset, skipping."], off) := by
  simp only [processCategory, hm]
  rw [if_neg (by omega)]
  simp

/-- Concrete check of `processCategory_skips_root_not_in_mask`: requesting
category `"B"` over a column that is constantly `"A"` skips and warns once. -/
theorem processCategory_skips_root_not_in_mask_witness :
    processCategory cObs 1 0 1 1 "rw_paths" none cTprov cUs ([], [], 0) (some "B")
      = Except.ok ([], [] ++ ["Root node not in grouped subset, skipping."], 0) :=
  processCategory_skips_root_not_in_mask cObs 1 0 1 1 "rw_paths" none cTprov cUs
    [] [] 0 (some "B") (by norm_num) (by rfl)

/-- C7: a consulted row whose probabilities do not sum to 1 within NumPy's
tolerance (e.g. summing to 0.99) makes the `np.random.choice` call fail fast
with a diagnosable `ValueError`, for every value of the uniform draw — so
before any draw from that row is produced, and without the row ever being
renormalized or clamped to yield a sample. -/
theorem np_choice_rejects_bad_row_sum (n : ℕ) (p : List ℚ) (u : ℚ)
    (hlen : p.length = n) (hnn : ∀ q ∈ p, 0 ≤ q) (hs : atol < |p.sum - 1|) :
    np_choice n p u = Except.error "ValueError: probabilities do not sum to 1" := by
  have hany : p.any (fun q => decide (q < 0)) = false := by
    simp only [List.any_eq_false, decide_eq_true_eq]
    intro q hq
    exact not_lt.mpr (hnn q hq)
  simp [np_choice, hlen, hany, hs]

/-- Concrete check of `np_choice_rejects_bad_row_sum` on the row `[0.99]`
(sum 0.99, outside tolerance) with draw 0. -/
theorem np_choice_rejects_bad_row_sum_witness :
    np_choice 1 [99 / 100] 0 = Except.error "ValueError: probabilities do not sum to 1" :=
  np_choice_rejects_bad_row_sum 1 [99 / 100] 0 rfl
    (by intro q hq; simp at hq; rw [hq]; norm_num)
    (by
      have habs : |(99 : ℚ) / 100 - 1| = 1 / 100 := by
        rw [abs_of_neg (by norm_num)]
        norm_num
      rw [List.sum_cons, List.sum_nil, add_zero, habs]
      norm_num [atol])

/-- C8 (amended): `walk_length = 0` is not rejected; the call proceeds
normally, the sampling loop performs zero steps, and every stored path array
degenerates to rows equal to `[root_node]`. -/
theorem random_walk_walk_length_zero_degenerate (adata : AData)
    (root_node n_walks : ℕ) (forward_walk : Bool) (path_key : String)
    (groupby groups : Option String) (self_transitions : Bool) (random_state : ℤ)
    (copy : Bool) (Tprov : Option String → List (List ℚ)) (us : ℕ → ℚ)
    (d : AData) (ws : List String)
    (h : random_walk adata root_node 0 n_walks forward_walk path_key groupby
      groups self_transitions random_state copy Tprov us = Except.ok (d, ws))
    (hU : adata.uns = []) :
    ∀ kv ∈ d.uns, ∀ row ∈ kv.2, row = [root_node] := by
  intro kv hkv row hrow
  rcases random_walk_ok_spec adata root_node 0 n_walks forward_walk path_key
      groupby groups self_transitions random_state copy Tprov us d ws h kv hkv with
    hold | ⟨cat, -, -, hgood⟩
  · rw [hU] at hold
    simp at hold
  · obtain ⟨hlen, hhead, -⟩ := hgood.2 row hrow
    cases row with
    | nil => simp at hhead
    | cons a t =>
      simp only [List.head?_cons, Option.some.injEq] at hhead
      have : t = [] := List.eq_nil_of_length_eq_zero (by simpa using hlen)
      rw [hhead, this]

/-- Concrete check of `random_walk_walk_length_zero_degenerate` on the
`walk_length = 0` run that stores `[[0]]`. -/
theorem random_walk_walk_length_zero_degenerate_witness : ([0] : List ℕ) = [0] :=
  random_walk_walk_length_zero_degenerate cAD 0 1 true "rw_paths" none none false 0
    false cTprov cUs { cAD with uns := [("rw_paths", [[0]])] } [] (by rfl) rfl
    ("rw_paths", [[0]]) (by simp) [0] (by simp)

/-- C9 (amended): when the caller requests an explicit group selection
(`groups` set), the category iterated is the sentinel `None`, so the path set
is stored under the plain `path_key` with no category suffix — even though
grouping is active. -/
theorem random_walk_explicit_groups_plain_key (adata : AData)
    (root_node walk_length n_walks : ℕ) (forward_walk : Bool) (path_key : String)
    (groupby : Option String) (g : String) (self_transitions : Bool)
    (random_state : ℤ) (copy : Bool)
    (Tprov : Option String → List (List ℚ)) (us : ℕ → ℚ)
    (d : AData) (ws : List String)
    (h : random_walk adata root_node walk_length n_walks forward_walk path_key groupby
      (some g) self_transitions random_state copy Tprov us = Except.ok (d, ws))
    (hU : adata.uns = []) :
    ∀ kv ∈ d.uns, kv.1 = path_key := by
  intro kv hkv
  rcases random_walk_ok_spec adata root_node walk_length n_walks forward_walk path_key
      groupby (some g) self_transitions random_state copy Tprov us d ws h kv hkv with
    hold | ⟨cat, hcat, hkey, -⟩
  · rw [hU] at hold
    simp at hold
  · have hnone : cat = none := by
      cases groupby <;> simpa [categoriesOf] using hcat
    rw [hkey, hnone]
    rfl

/-- Concrete check of `random_walk_explicit_groups_plain_key` on the explicit
single-group run (`groupby = "gb"`, `groups = "A"`). -/
theorem random_walk_explicit_groups_plain_key_witness :
    ("rw_paths", ([[0, 0]] : List (List ℕ))).1 = "rw_paths" :=
  random_walk_explicit_groups_plain_key cAD9 0 1 1 true "rw_paths" (some "gb") "A"
    false 0 false cTprov cUs { cAD9 with uns := [("rw_paths", [[0, 0]])] }
    ["Only set groupby, when you have evident distinct clusters/lineages, each with an own root and end point."]
    (by rfl) rfl ("rw_paths", [[0, 0]]) (by simp)

/-- C10: `velocity_model` references the undefined module-level name `data`
instead of its parameter `adata`, so every invocation raises `NameError`
after the model is obtained; nothing is stored under `mkey`, and with
`copy = False` the caller's dataset (second component) is returned exactly as
it was passed in — its `uns` mapping unchanged. -/
theorem velocity_model_always_name_error (adata : MData) (model_name mkey : String)
    (get_model : String → String) :
    velocity_model adata model_name mkey false get_model
      = (Except.error "NameError: name data is not defined", adata) := rfl

/-- C8 counterexample: `walk_length = 0` is not rejected as a configuration
error.  The call succeeds — the sampling loop runs zero steps — and a path set
`[[root]]` of shape `(n_walks, 1)` is written to the store. -/
theorem random_walk_accepts_walk_length_zero :
    (random_walk cAD 0 0 1 true "rw_paths" none none false 0 false cTprov cUs).map
      (fun r => r.1.uns) = Except.ok [("rw_paths", [[0]])] := by rfl

/-- C9 counterexample: with grouping active (`groupby = "gb"`) and an explicit
single group requested (`groups = "A"`), the claim says the path set is stored
under `path_key + "_" + category_label`; instead the iterated category is the
sentinel `None` and the result is stored under the plain key `"rw_paths"` —
the store holds no entry `"rw_paths_A"`. -/
theorem random_walk_explicit_group_key_unsuffixed :
    (random_walk cAD9 0 1 1 true "rw_paths" (some "gb") (some "A") false 0 false cTprov cUs).map
      (fun r => r.1.uns) = Except.ok [("rw_paths", [[0, 0]])] := by rfl

end Evolocity
